import Mathlib

/-!
Verification of the resource-monitoring core of a Linux process monitor.

Conventions of the embedding:
* Rust `u64`/`usize`/`u32` values are modelled as `Nat` (subtraction on `Nat`
  is truncated, which coincides with `u64::saturating_sub` on in-range values).
* Rust `f32` metric values (CPU percent, GPU percent) are modelled as `ℚ`;
  the sampled values are ratios of counters, so no NaN/infinity arises.
* Rust `String`/`&str` values that are inspected character by character are
  modelled as `List Char`; environment reads (`/proc`, `/sys`, command output)
  are passed in as explicit parameters.
* `Result`/`Option` returning functions are modelled with `Except`/`Option`.
-/

/- ===== Generic character/string helpers (models of `str` methods) ===== -/

/-- Model of `str::trim`: drop whitespace from both ends. -/
def trimChars (l : List Char) : List Char :=
  ((l.dropWhile Char.isWhitespace).reverse.dropWhile Char.isWhitespace).reverse

/-- Digits to number, the accumulator loop inside integer parsing. -/
def digitsVal (l : List Char) : Nat :=
  l.foldl (fun a c => a * 10 + (c.toNat - 48)) 0

/-- Core of `usize::from_str` on a sign-free slice: nonempty, all digits. -/
def parseNatCore (l : List Char) : Option Nat :=
  if l.isEmpty then none
  else if l.all Char.isDigit then some (digitsVal l)
  else none

/-- Model of `str::parse::<usize>`: optional leading plus sign, then digits.
(Overflow of the machine-integer range is not modelled; all values of
interest here are small.) -/
def parseNat (l : List Char) : Option Nat :=
  match l with
  | '+' :: rest => parseNatCore rest
  | _ => parseNatCore l

/-- Model of `str::parse::<i32>`: optional sign, then digits. -/
def parseIntChars (l : List Char) : Option Int :=
  match l with
  | '-' :: rest => (parseNatCore rest).map (fun n => -(n : Int))
  | '+' :: rest => (parseNatCore rest).map (fun n => (n : Int))
  | _ => (parseNatCore l).map (fun n => (n : Int))

/-- Model of `str::find(c)`: index of the first occurrence of a character. -/
def firstIdxOf (l : List Char) (c : Char) : Option Nat :=
  match l with
  | [] => none
  | x :: xs => if x = c then some 0 else (firstIdxOf xs c).map (· + 1)

/-- Model of `str::rfind(c)`: index of the last occurrence of a character. -/
def lastIdxOf (l : List Char) (c : Char) : Option Nat :=
  match l with
  | [] => none
  | x :: xs =>
    match lastIdxOf xs c with
    | some j => some (j + 1)
    | none => if x = c then some 0 else none

/-- One step of `split_whitespace`, consuming characters from the right:
the pair holds the token currently being built and the finished tokens. -/
def splitWsStep (c : Char) (acc : List Char × List (List Char)) :
    List Char × List (List Char) :=
  if c.isWhitespace then
    ([], if acc.1.isEmpty then acc.2 else acc.1 :: acc.2)
  else
    (c :: acc.1, acc.2)

/-- Model of `str::split_whitespace` collected into a `Vec`: maximal runs of
non-whitespace characters, empty tokens dropped. -/
def splitWs (l : List Char) : List (List Char) :=
  let r := l.foldr splitWsStep ([], [])
  if r.1.isEmpty then r.2 else r.1 :: r.2

/- ===== monitor.rs : ProcessInfo and its derived metrics ===== -/

/-- `ProcessInfo` from `monitor.rs`: a single process with its resource
usage, plus the member threads attached to it by aggregation. -/
structure ProcessInfo where
  pid : Nat
  name : List Char
  cpu_percent : ℚ
  memory_bytes : Nat
  disk_read_bytes : Nat
  disk_write_bytes : Nat
  gpu_percent : Option ℚ
  net_rx_bytes : Nat
  net_tx_bytes : Nat
  children : List ProcessInfo
  is_group : Bool

/-- `ProcessInfo::total_cpu`: own CPU plus the sum of the children's CPU. -/
def ProcessInfo.total_cpu (p : ProcessInfo) : ℚ :=
  p.cpu_percent + (p.children.map (fun c => c.cpu_percent)).sum

/-- `ProcessInfo::total_memory`: the leader's own memory only, children are
never summed (threads share one address space). -/
def ProcessInfo.total_memory (p : ProcessInfo) : Nat :=
  p.memory_bytes

/-- `ProcessInfo::total_disk_read`. -/
def ProcessInfo.total_disk_read (p : ProcessInfo) : Nat :=
  p.disk_read_bytes + (p.children.map (fun c => c.disk_read_bytes)).sum

/-- `ProcessInfo::total_disk_write`. -/
def ProcessInfo.total_disk_write (p : ProcessInfo) : Nat :=
  p.disk_write_bytes + (p.children.map (fun c => c.disk_write_bytes)).sum

/-- `ProcessInfo::total_disk_io`. -/
def ProcessInfo.total_disk_io (p : ProcessInfo) : Nat :=
  p.total_disk_read + p.total_disk_write

/-- `ProcessInfo::total_gpu`: maximum of own and children's GPU percent. -/
def ProcessInfo.total_gpu (p : ProcessInfo) : ℚ :=
  let self_gpu := p.gpu_percent.getD 0
  let children_max := (p.children.filterMap (fun c => c.gpu_percent)).foldl max 0
  max self_gpu children_max

/-- `ProcessInfo::child_count`. -/
def ProcessInfo.child_count (p : ProcessInfo) : Nat :=
  p.children.length

/- ===== monitor.rs : SystemMonitor::refresh, aggregation passes ===== -/

/-- The `match` discriminator of refresh's second pass: a sample is a member
thread when its TGID is known and differs from its own pid; otherwise it is
its own thread-group leader. -/
def isMemberSample (p : ProcessInfo) (tgid : Option Nat) : Bool :=
  match tgid with
  | some t => t != p.pid
  | none => false

/-- The member samples attached to the leader with pid `leaderPid`
(refresh's `threads_by_tgid` entry for that TGID). -/
def membersOf (samples : List (ProcessInfo × Option Nat)) (leaderPid : Nat) :
    List ProcessInfo :=
  samples.filterMap (fun s =>
    match s.2 with
    | some t => if t ≠ s.1.pid ∧ t = leaderPid then some s.1 else none
    | none => none)

/-- Refresh's second and third passes: keep the leaders, attach each leader's
member threads (marking it a group); members whose leader is absent this tick
are dropped. `samples` is the first pass's `all_processes` map, one entry per
pid, carrying the info and the TGID read for that pid. -/
def attachEntities (samples : List (ProcessInfo × Option Nat)) :
    List ProcessInfo :=
  (samples.filter (fun s => ! isMemberSample s.1 s.2)).map (fun s =>
    let ms := membersOf samples s.1.pid
    if ms.isEmpty then s.1 else { s.1 with children := ms, is_group := true })

/-- The sort comparator of refresh: `b.total_cpu().partial_cmp(&a.total_cpu())`,
i.e. `a` may precede `b` when `b`'s total CPU is at most `a`'s. -/
def cpuDescLe (a b : ProcessInfo) : Bool :=
  decide (b.total_cpu ≤ a.total_cpu)

/-- Refresh's sort: a stable sort by total CPU descending. -/
def sortByTotalCpuDesc (l : List ProcessInfo) : List ProcessInfo :=
  l.mergeSort cpuDescLe

/-- The entity-list tail of `SystemMonitor::refresh`: group, sort by total
CPU descending, then truncate to the top 150. -/
def refreshEntities (samples : List (ProcessInfo × Option Nat)) :
    List ProcessInfo :=
  (sortByTotalCpuDesc (attachEntities samples)).take 150

/- ===== monitor.rs : ProcessHistory ===== -/

/-- `ProcessHistory` from `monitor.rs`: one bounded buffer per metric. -/
structure ProcessHistory where
  cpu_history : List ℚ
  memory_history : List Nat
  disk_read_history : List Nat
  disk_write_history : List Nat
  gpu_mem_history : List ℚ
  gpu_util_history : List ℚ
  net_rx_history : List Nat
  net_tx_history : List Nat

/-- `ProcessHistory::default()`: all buffers empty. -/
def emptyHistory : ProcessHistory :=
  ⟨[], [], [], [], [], [], [], []⟩

/-- The `while len > max_samples { pop_front }` loop of `add_sample` and
`trim_to`, applied to one buffer. -/
def trimWhile (max_samples : Nat) : List α → List α
  | [] => []
  | x :: xs =>
    if max_samples < xs.length + 1 then trimWhile max_samples xs else x :: xs

/-- `ProcessHistory::add_sample`: push one value onto every buffer, then
drop oldest entries while a buffer exceeds `max_samples`. -/
def ProcessHistory.add_sample (h : ProcessHistory) (cpu : ℚ)
    (memory disk_read disk_write : Nat) (gpu_mem gpu_util : ℚ)
    (net_rx net_tx : Nat) (max_samples : Nat) : ProcessHistory where
  cpu_history := trimWhile max_samples (h.cpu_history ++ [cpu])
  memory_history := trimWhile max_samples (h.memory_history ++ [memory])
  disk_read_history := trimWhile max_samples (h.disk_read_history ++ [disk_read])
  disk_write_history := trimWhile max_samples (h.disk_write_history ++ [disk_write])
  gpu_mem_history := trimWhile max_samples (h.gpu_mem_history ++ [gpu_mem])
  gpu_util_history := trimWhile max_samples (h.gpu_util_history ++ [gpu_util])
  net_rx_history := trimWhile max_samples (h.net_rx_history ++ [net_rx])
  net_tx_history := trimWhile max_samples (h.net_tx_history ++ [net_tx])

/-- `ProcessHistory::trim_to`: shrink every buffer to `max_samples` without
adding a sample. -/
def ProcessHistory.trim_to (h : ProcessHistory) (max_samples : Nat) :
    ProcessHistory where
  cpu_history := trimWhile max_samples h.cpu_history
  memory_history := trimWhile max_samples h.memory_history
  disk_read_history := trimWhile max_samples h.disk_read_history
  disk_write_history := trimWhile max_samples h.disk_write_history
  gpu_mem_history := trimWhile max_samples h.gpu_mem_history
  gpu_util_history := trimWhile max_samples h.gpu_util_history
  net_rx_history := trimWhile max_samples h.net_rx_history
  net_tx_history := trimWhile max_samples h.net_tx_history

/-- One tick's sample tuple for a tracked entity, the eight values passed
to `add_sample` by `refresh`. -/
structure SampleTuple where
  cpu : ℚ
  memory : Nat
  disk_read : Nat
  disk_write : Nat
  gpu_mem : ℚ
  gpu_util : ℚ
  net_rx : Nat
  net_tx : Nat

/-- Apply one sample tuple to a history record. -/
def applySample (h : ProcessHistory) (a : SampleTuple) (max_samples : Nat) :
    ProcessHistory :=
  h.add_sample a.cpu a.memory a.disk_read a.disk_write a.gpu_mem a.gpu_util
    a.net_rx a.net_tx max_samples

/-- Apply a list of sample tuples in succession (one per tick). -/
def applySamples (h : ProcessHistory) (as : List SampleTuple)
    (max_samples : Nat) : ProcessHistory :=
  as.foldl (fun h a => applySample h a max_samples) h

/-- All eight buffers of a record have length `n`. -/
def HistLens (h : ProcessHistory) (n : Nat) : Prop :=
  h.cpu_history.length = n ∧ h.memory_history.length = n ∧
  h.disk_read_history.length = n ∧ h.disk_write_history.length = n ∧
  h.gpu_mem_history.length = n ∧ h.gpu_util_history.length = n ∧
  h.net_rx_history.length = n ∧ h.net_tx_history.length = n

/- ===== monitor.rs : the per-pid history store maintained by refresh ===== -/

/-- The history-update loop of `refresh`: for each returned entity, fetch or
create its record (`entry(..).or_default()`) and append this tick's totals. -/
def updateHistories (hist : Nat → Option ProcessHistory)
    (procs : List ProcessInfo) (gpu_util : ℚ) (net_rx net_tx max_samples : Nat) :
    Nat → Option ProcessHistory :=
  procs.foldl
    (fun h p => fun q =>
      if q = p.pid then
        some (((h p.pid).getD emptyHistory).add_sample p.total_cpu
          p.total_memory p.total_disk_read p.total_disk_write p.total_gpu
          gpu_util net_rx net_tx max_samples)
      else h q)
    hist

/-- The `retain` at the end of `refresh`: keep only records whose pid is in
this tick's returned list. -/
def retainCurrent (hist : Nat → Option ProcessHistory)
    (procs : List ProcessInfo) : Nat → Option ProcessHistory :=
  fun q => if (procs.map ProcessInfo.pid).contains q then hist q else none

/-- The history side effect of one `refresh` tick on the store. -/
def refreshHistories (hist : Nat → Option ProcessHistory)
    (procs : List ProcessInfo) (gpu_util : ℚ) (net_rx net_tx max_samples : Nat) :
    Nat → Option ProcessHistory :=
  retainCurrent (updateHistories hist procs gpu_util net_rx net_tx max_samples)
    procs

/-- `SystemMonitor::get_history`. -/
def get_history (hist : Nat → Option ProcessHistory) (pid : Nat) :
    Option ProcessHistory :=
  hist pid

/- ===== monitor.rs : network rate computation ===== -/

/-- The network-tracking fields of `SystemMonitor`. -/
structure NetState where
  last_net_rx : Nat
  last_net_tx : Nat
  net_rx_rate : Nat
  net_tx_rate : Nat

/-- The network-rate update at the top of `refresh`: rates are the
saturating subtraction of the previous cumulative reading from the current
one, and the current reading becomes the new baseline. -/
def netRefreshStep (st : NetState) (net_rx net_tx : Nat) : NetState where
  last_net_rx := net_rx
  last_net_tx := net_tx
  net_rx_rate := net_rx - st.last_net_rx
  net_tx_rate := net_tx - st.last_net_tx

/-- Per-tick deltas of a cumulative counter sequence, starting from a
baseline reading. -/
def counterDeltas (prev : Nat) : List Nat → List Nat
  | [] => []
  | r :: rs => (r - prev) :: counterDeltas r rs

/- ===== process_actions.rs : signals ===== -/

/-- `Signal` from `process_actions.rs`: the signal kinds offered. -/
inductive Signal where
  | Term
  | Kill
  | Stop
  | Cont
deriving DecidableEq

/-- `Signal::number`: the numeric signal sent by `send_signal`. -/
def Signal.number : Signal → Int
  | .Term => 15
  | .Kill => 9
  | .Stop => 19
  | .Cont => 18

/-- `kill_process`: SIGKILL when forced, otherwise SIGTERM. -/
def kill_process_signal (force : Bool) : Signal :=
  if force then .Kill else .Term

/- ===== process_actions.rs : CPU topology ===== -/

/-- `CoreType` from `process_actions.rs`. -/
inductive CoreType where
  | PCore
  | ECore
  | X3D
  | Standard
deriving DecidableEq

/-- The size parse inside `detect_amd_x3d_cores`: a trimmed reading such as
`32768K` or `96M`, normalized to kilobytes, defaulting to 0 on parse
failure. -/
def parseSizeKb (raw : List Char) : Nat :=
  let s := trimChars raw
  if s.getLast? = some 'K' then (parseNat s.dropLast).getD 0
  else if s.getLast? = some 'M' then ((parseNat s.dropLast).getD 0) * 1024
  else (parseNat s).getD 0

/-- The per-core L3 readings gathered by `detect_amd_x3d_cores`: one
`(core, size-in-KB)` pair per core whose cache file could be read.
`cacheRead i` is the content of `/sys/.../cpu{i}/cache/index3/size`. -/
def sizedCores (cacheRead : Nat → Option (List Char)) (cpu_count : Nat) :
    List (Nat × Nat) :=
  (List.range cpu_count).filterMap
    (fun i => (cacheRead i).map (fun s => (i, parseSizeKb s)))

/-- `detect_amd_x3d_cores`: on an AMD vendor string, group cores by L3 size;
when more than one distinct size exists and the largest exceeds double the
smallest, return the cores of the largest-cache group. `isAMD` is whether
`/proc/cpuinfo` contains `AMD`. -/
def detect_amd_x3d_cores (isAMD : Bool)
    (cacheRead : Nat → Option (List Char)) (cpu_count : Nat) :
    Option (List Nat) :=
  if isAMD = false then none
  else
    let pairs := sizedCores cacheRead cpu_count
    let sizes := (pairs.map Prod.snd).dedup
    if 1 < sizes.length then
      match sizes.max?, sizes.min? with
      | some maxS, some minS =>
        if minS * 2 < maxS then
          some (pairs.filterMap (fun p => if p.2 = maxS then some p.1 else none))
        else none
      | _, _ => none
    else none

/-- The core-kind choice inside `get_cpu_core_info` for one core index:
Intel hybrid classification wins when present, else membership in the
detected X3D set, else standard. -/
def coreTypeFor (intel : Option (List CoreType)) (x3d : Option (List Nat))
    (i : Nat) : CoreType :=
  match intel with
  | some types => types.getD i CoreType.Standard
  | none =>
    match x3d with
    | some l => if l.contains i then CoreType.X3D else CoreType.Standard
    | none => CoreType.Standard

/- ===== process_actions.rs : /proc/<pid>/stat parsing ===== -/

/-- `get_priority`: find the first closing parenthesis (taken as the end of
the comm field), split the remainder on whitespace, and parse field 16 (the
nice value). -/
def get_priority (content : List Char) : Except (List Char) Int :=
  match firstIdxOf content ')' with
  | none => Except.error ("Invalid stat format".toList)
  | some comm_end =>
    let after_comm := content.drop (comm_end + 1)
    let fields := splitWs after_comm
    if 16 < fields.length then
      match parseIntChars (fields.getD 16 []) with
      | some v => Except.ok v
      | none => Except.error ("Invalid nice value".toList)
    else Except.error ("Stat file too short".toList)

/-- `parse_stat_for_cpu`: locate the comm field between the first opening
parenthesis and the last closing parenthesis, and read field 36 after it
(the processor the thread last ran on). -/
def parse_stat_for_cpu (content : List Char) : List Char × Option Nat :=
  let comm_start := (firstIdxOf content '(').getD 0
  let comm_end := (lastIdxOf content ')').getD content.length
  let name :=
    if comm_start < comm_end then (content.take comm_end).drop (comm_start + 1)
    else ("unknown".toList)
  let after_comm := content.drop (comm_end + 1)
  let fields := splitWs after_comm
  (name, (fields.get? 36).bind parseNat)

/-- A well-formed whitespace-delimited stat field: nonempty, no whitespace. -/
def IsToken (f : List Char) : Prop :=
  f ≠ [] ∧ ∀ c ∈ f, c.isWhitespace = false

instance (f : List Char) : Decidable (IsToken f) := by
  unfold IsToken
  infer_instance

/-- The post-comm tail of a stat record: each field preceded by one space. -/
def wsJoin (fs : List (List Char)) : List Char :=
  fs.foldr (fun f acc => ' ' :: (f ++ acc)) []

/-- A `/proc/<pid>/stat` record: pid, the comm field in parentheses, then
the whitespace-delimited fields. -/
def mkStat (pid name : List Char) (fields : List (List Char)) : List Char :=
  pid ++ ' ' :: '(' :: (name ++ ')' :: wsJoin fields)

/-- A reference reading of the nice value that follows the specification's
words: the name field is delimited by its closing parenthesis, i.e. the
last one (the comm field cannot contain a newline, so the last closing
parenthesis of the record ends it); nice is field 16 after it. Used only to
compare `get_priority` against the specified behaviour. -/
def specNiceAfterLastParen (content : List Char) : Option Int :=
  match lastIdxOf content ')' with
  | none => none
  | some comm_end =>
    let fields := splitWs (content.drop (comm_end + 1))
    if 16 < fields.length then parseIntChars (fields.getD 16 []) else none

/- ===== process_actions.rs : CPU affinity ===== -/

/-- Model of `stdout.split(':').last()`: the suffix after the last
separator (the whole string when the separator is absent). `split` always
yields at least one piece, so the Rust `Option` is always `Some`. -/
def lastSegment (l : List Char) (sep : Char) : List Char :=
  (l.reverse.takeWhile (fun c => c != sep)).reverse

/-- Value of one hexadecimal digit. -/
def hexDigitVal (c : Char) : Nat :=
  if c.isDigit then c.toNat - 48
  else if 'a' ≤ c ∧ c ≤ 'f' then c.toNat - 87
  else c.toNat - 55

/-- Whether a character is a hexadecimal digit. -/
def isHexDigit (c : Char) : Bool :=
  c.isDigit || ('a' ≤ c && c ≤ 'f') || ('A' ≤ c && c ≤ 'F')

/-- Model of `u64::from_str_radix(s, 16)`: optional leading plus sign, then
a nonempty run of hex digits, rejecting values outside the `u64` range. -/
def parseHexU64 (l : List Char) : Option Nat :=
  let core := fun (d : List Char) =>
    if d.isEmpty then none
    else if d.all isHexDigit then
      let v := d.foldl (fun a c => a * 16 + hexDigitVal c) 0
      if v < 2 ^ 64 then some v else none
    else none
  match l with
  | '+' :: rest => core rest
  | _ => core l

/-- `get_cpu_affinity`, given the `taskset -p` stdout and the detected core
count (`get_cpu_count()`): parse the hex mask after the last colon and
return one boolean per core index below the core count, true when the
corresponding mask bit is set. The source computes `mask & (1u64 << i)`;
a 64-bit shift takes its amount modulo 64 in optimized builds (and panics
in debug builds when `i >= 64`), so the mask bit consulted for core `i` is
bit `i % 64`. -/
def get_cpu_affinity (stdout : List Char) (cpu_count : Nat) :
    Option (List Bool) :=
  match parseHexU64 (trimChars (lastSegment stdout ':')) with
  | some mask =>
    some ((List.range cpu_count).map (fun i => (mask &&& (1 <<< (i % 64))) != 0))
  | none => none

/- ===== Concrete inputs used by the examples and witnesses ===== -/

/-- A first-pass sample info as `refresh` builds it: pid plus metrics, no
children yet. -/
def mkInfo (pid : Nat) : ProcessInfo :=
  { pid := pid, name := [], cpu_percent := 0, memory_bytes := 0,
    disk_read_bytes := 0, disk_write_bytes := 0, gpu_percent := none,
    net_rx_bytes := 0, net_tx_bytes := 0, children := [], is_group := false }

/-- The tick of the specification's grouping example: pid 500 with
`Tgid: 500`, pid 501 with `Tgid: 500`. -/
def ex500 : List (ProcessInfo × Option Nat) :=
  [(mkInfo 500, some 500), (mkInfo 501, some 500)]

/-- The entity that tick produces: pid 500 leading member 501. -/
def ent500 : ProcessInfo :=
  { mkInfo 500 with children := [mkInfo 501], is_group := true }

/-- The L3 readout of the specification's X3D example: `32768K` for cores
0–7 and `98304K` for cores 8–15. -/
def exCacheRead (i : Nat) : Option (List Char) :=
  if i < 8 then some ("32768K".toList) else some ("98304K".toList)

/-- A stat record whose comm field contains a closing parenthesis: process
`a)b`, priority 15, nice 5. -/
def exStat : List Char :=
  ("500 (a)b) S 1 1 1 0 -1 0 0 0 0 0 0 0 0 0 15 5 1 0 0 0 0".toList)

/-- A `taskset -p` output line with mask 5 over 4 cores (cores 0 and 2). -/
def exTaskset : List Char :=
  ("pid 42 current affinity mask: 5".toList)

/-- A `taskset -p` output line with mask 1, read on a machine whose core
count exceeds 64. -/
def exTaskset1 : List Char :=
  ("pid 99 current affinity mask: 1".toList)

/-- An all-zero sample tuple, used to exercise the history store. -/
def exTuple : SampleTuple :=
  ⟨0, 0, 0, 0, 0, 0, 0, 0⟩

/-- Seventeen well-formed stat fields whose field 16 (nice) is `5`. -/
def exFields : List (List Char) :=
  splitWs ("S 1 1 1 0 -1 0 0 0 0 0 0 0 0 0 15 5".toList)

/- ===================== Helper lemmas ===================== -/

theorem trimWhile_length (max_samples : Nat) (l : List α) :
    (trimWhile max_samples l).length = min l.length max_samples := by
  induction l with
  | nil => simp [trimWhile]
  | cons x xs ih =>
    simp only [trimWhile]
    split
    · rename_i h
      rw [ih]
      simp only [List.length_cons]
      omega
    · rename_i h
      simp only [List.length_cons]
      omega

theorem histLens_empty : HistLens emptyHistory 0 := by
  refine ⟨rfl, rfl, rfl, rfl, rfl, rfl, rfl, rfl⟩

theorem histLens_add {h : ProcessHistory} {n : Nat} (hl : HistLens h n)
    (a : SampleTuple) (max_samples : Nat) :
    HistLens (applySample h a max_samples) (min (n + 1) max_samples) := by
  obtain ⟨h1, h2, h3, h4, h5, h6, h7, h8⟩ := hl
  refine ⟨?_, ?_, ?_, ?_, ?_, ?_, ?_, ?_⟩ <;>
    simp [applySample, ProcessHistory.add_sample, trimWhile_length,
      h1, h2, h3, h4, h5, h6, h7, h8]

theorem applySamples_lens (as : List SampleTuple) :
    ∀ (h : ProcessHistory) (n max_samples : Nat), n ≤ max_samples →
      HistLens h n →
      HistLens (applySamples h as max_samples) (min (n + as.length) max_samples) := by
  induction as with
  | nil =>
    intro h n max_samples hle hl
    have : min (n + ([] : List SampleTuple).length) max_samples = n := by
      simp; omega
    rw [this]
    exact hl
  | cons a as ih =>
    intro h n max_samples hle hl
    have step : applySamples h (a :: as) max_samples =
        applySamples (applySample h a max_samples) as max_samples := rfl
    rw [step]
    have h1 := histLens_add hl a max_samples
    have h2 := ih (applySample h a max_samples) (min (n + 1) max_samples)
      max_samples (by omega) h1
    have : min (min (n + 1) max_samples + as.length) max_samples =
        min (n + (a :: as).length) max_samples := by
      simp only [List.length_cons]
      omega
    rwa [this] at h2

/- ===================== Claim theorems ===================== -/

/-- C4: for every `ProcessInfo`, `total_memory` equals the leader's own
resident memory bytes, regardless of how many members the entity has and
regardless of the members' memory values. -/
theorem total_memory_leader_only :
    ∀ (p : ProcessInfo) (cs : List ProcessInfo),
      p.total_memory = p.memory_bytes ∧
      ProcessInfo.total_memory { p with children := cs } = p.memory_bytes :=
  fun _ _ => ⟨rfl, rfl⟩

/-- C5: the per-tick network rates computed by `refresh` are the saturating
subtraction of the previous cumulative reading from the current one (an
exact delta on a monotone counter, zero on a counter reset), and for the
counter sequence `[100, 50]` the computed delta is `0`. -/
theorem net_rate_saturating :
    (∀ (st : NetState) (rx tx : Nat),
        (netRefreshStep st rx tx).net_rx_rate = rx - st.last_net_rx ∧
        (netRefreshStep st rx tx).net_tx_rate = tx - st.last_net_tx ∧
        (netRefreshStep st rx tx).last_net_rx = rx ∧
        (netRefreshStep st rx tx).last_net_tx = tx) ∧
    (∀ (st : NetState) (rx tx : Nat), st.last_net_rx ≤ rx →
        (netRefreshStep st rx tx).net_rx_rate + st.last_net_rx = rx) ∧
    (∀ (st : NetState) (rx tx : Nat), rx < st.last_net_rx →
        (netRefreshStep st rx tx).net_rx_rate = 0) ∧
    (∀ st : NetState,
        (netRefreshStep (netRefreshStep st 100 100) 50 50).net_rx_rate = 0) ∧
    counterDeltas 0 [100, 50] = [100, 0] := by
  refine ⟨fun st rx tx => ⟨rfl, rfl, rfl, rfl⟩, ?_, ?_, fun st => rfl, rfl⟩
  · intro st rx tx hle
    simp only [netRefreshStep]
    omega
  · intro st rx tx hlt
    simp only [netRefreshStep]
    omega

/-- Witness for C5 at a concrete state: baseline 10, reading 15, delta 5. -/
theorem net_rate_saturating_witness :
    (⟨10, 10, 0, 0⟩ : NetState).last_net_rx ≤ 15 ∧
    (netRefreshStep ⟨10, 10, 0, 0⟩ 15 15).net_rx_rate + 10 = 15 :=
  ⟨by decide, net_rate_saturating.2.1 ⟨10, 10, 0, 0⟩ 15 15 (by decide)⟩

/-- C6 counterexample: no signal kind offered by the code maps to the
hangup signal number 1 — the `Signal` enum has no hangup variant. -/
theorem signal_no_hangup : ¬ ∃ s : Signal, s.number = 1 := by
  rintro ⟨s, h⟩
  cases s <;> simp [Signal.number] at h

/-- C6 amended: `send_signal` accepts exactly the kinds terminate (Term),
force-kill (Kill), pause (Stop), and resume (Cont) — hangup is not
offered — mapped to the fixed numeric signals 15, 9, 19 and 18. -/
theorem signal_kinds_and_numbers :
    Signal.Term.number = 15 ∧ Signal.Kill.number = 9 ∧
    Signal.Stop.number = 19 ∧ Signal.Cont.number = 18 ∧
    (∀ s : Signal, s = .Term ∨ s = .Kill ∨ s = .Stop ∨ s = .Cont) ∧
    (∀ s : Signal, s.number ≠ 1) ∧
    kill_process_signal true = .Kill ∧ kill_process_signal false = .Term := by
  refine ⟨rfl, rfl, rfl, rfl, ?_, ?_, rfl, rfl⟩ <;> intro s <;> cases s <;> decide

/-- C3: after `add_sample` with capacity `max_samples`, each of the eight
metric buffers has length `min (previous_length + 1) max_samples`; equal
buffer lengths are preserved, after `N` successive calls with capacity `N`
every buffer has length exactly `N`, and one further call leaves it `N`. -/
theorem add_sample_buffer_lengths :
    (∀ (h : ProcessHistory) (cpu : ℚ) (memory disk_read disk_write : Nat)
        (gpu_mem gpu_util : ℚ) (net_rx net_tx max_samples : Nat),
        (h.add_sample cpu memory disk_read disk_write gpu_mem gpu_util net_rx
            net_tx max_samples).cpu_history.length =
          min (h.cpu_history.length + 1) max_samples ∧
        (h.add_sample cpu memory disk_read disk_write gpu_mem gpu_util net_rx
            net_tx max_samples).memory_history.length =
          min (h.memory_history.length + 1) max_samples ∧
        (h.add_sample cpu memory disk_read disk_write gpu_mem gpu_util net_rx
            net_tx max_samples).disk_read_history.length =
          min (h.disk_read_history.length + 1) max_samples ∧
        (h.add_sample cpu memory disk_read disk_write gpu_mem gpu_util net_rx
            net_tx max_samples).disk_write_history.length =
          min (h.disk_write_history.length + 1) max_samples ∧
        (h.add_sample cpu memory disk_read disk_write gpu_mem gpu_util net_rx
            net_tx max_samples).gpu_mem_history.length =
          min (h.gpu_mem_history.length + 1) max_samples ∧
        (h.add_sample cpu memory disk_read disk_write gpu_mem gpu_util net_rx
            net_tx max_samples).gpu_util_history.length =
          min (h.gpu_util_history.length + 1) max_samples ∧
        (h.add_sample cpu memory disk_read disk_write gpu_mem gpu_util net_rx
            net_tx max_samples).net_rx_history.length =
          min (h.net_rx_history.length + 1) max_samples ∧
        (h.add_sample cpu memory disk_read disk_write gpu_mem gpu_util net_rx
            net_tx max_samples).net_tx_history.length =
          min (h.net_tx_history.length + 1) max_samples) ∧
    (∀ (h : ProcessHistory) (n : Nat) (a : SampleTuple) (max_samples : Nat),
        HistLens h n →
        HistLens (applySample h a max_samples) (min (n + 1) max_samples)) ∧
    (∀ (as : List SampleTuple) (N : Nat), as.length = N →
        HistLens (applySamples emptyHistory as N) N) ∧
    (∀ (as : List SampleTuple) (N : Nat) (a : SampleTuple), as.length = N →
        HistLens (applySample (applySamples emptyHistory as N) a N) N) := by
  refine ⟨?_, ?_, ?_, ?_⟩
  · intro h cpu memory disk_read disk_write gpu_mem gpu_util net_rx net_tx ms
    refine ⟨?_, ?_, ?_, ?_, ?_, ?_, ?_, ?_⟩ <;>
      simp [ProcessHistory.add_sample, trimWhile_length]
  · intro h n a ms hl
    exact histLens_add hl a ms
  · intro as N hlen
    have h := applySamples_lens as emptyHistory 0 N (Nat.zero_le N) histLens_empty
    rw [hlen] at h
    have : min (0 + N) N = N := by omega
    rwa [this] at h
  · intro as N a hlen
    have h := applySamples_lens as emptyHistory 0 N (Nat.zero_le N) histLens_empty
    rw [hlen] at h
    have e : min (0 + N) N = N := by omega
    rw [e] at h
    have h2 := histLens_add h a N
    have : min (N + 1) N = N := by omega
    rwa [this] at h2

/-- Witness for C3: two all-zero samples at capacity 2 give every buffer
length 2. -/
theorem add_sample_buffer_lengths_witness :
    ([exTuple, exTuple] : List SampleTuple).length = 2 ∧
    HistLens (applySamples emptyHistory [exTuple, exTuple] 2) 2 :=
  ⟨rfl, add_sample_buffer_lengths.2.2.1 [exTuple, exTuple] 2 rfl⟩

theorem cpuDescLe_trans (a b c : ProcessInfo) (hab : cpuDescLe a b = true)
    (hbc : cpuDescLe b c = true) : cpuDescLe a c = true := by
  simp only [cpuDescLe, decide_eq_true_eq] at *
  exact le_trans hbc hab

theorem cpuDescLe_total (a b : ProcessInfo) :
    (cpuDescLe a b || cpuDescLe b a) = true := by
  simp only [cpuDescLe, Bool.or_eq_true, decide_eq_true_eq]
  exact le_total b.total_cpu a.total_cpu

/-- C1: `refresh` returns at most 150 entities, sorted by total CPU (leader
plus members) descending; the result is exactly the 150-prefix of the
stable sort of the aggregated entities (so truncation happens strictly
after sorting), and the sort permutes the aggregation's output. -/
theorem refresh_sorted_top150 :
    ∀ samples : List (ProcessInfo × Option Nat),
      (refreshEntities samples).length ≤ 150 ∧
      (refreshEntities samples).Pairwise
        (fun a b => b.total_cpu ≤ a.total_cpu) ∧
      refreshEntities samples =
        (sortByTotalCpuDesc (attachEntities samples)).take 150 ∧
      (sortByTotalCpuDesc (attachEntities samples)).Perm
        (attachEntities samples) := by
  intro samples
  refine ⟨?_, ?_, rfl, List.mergeSort_perm _ _⟩
  · simp only [refreshEntities, List.length_take]
    omega
  · have hs := List.sorted_mergeSort cpuDescLe_trans cpuDescLe_total
      (attachEntities samples)
    have ht := List.Pairwise.sublist
      (List.take_sublist 150 (sortByTotalCpuDesc (attachEntities samples)))
      hs
    exact ht.imp (fun h => by
      simpa only [cpuDescLe, decide_eq_true_eq] using h)

theorem attach_elim {samples : List (ProcessInfo × Option Nat)}
    {e : ProcessInfo} (he : e ∈ attachEntities samples) :
    ∃ s ∈ samples, isMemberSample s.1 s.2 = false ∧ e.pid = s.1.pid ∧
      ((membersOf samples s.1.pid ≠ [] ∧
        e.children = membersOf samples s.1.pid) ∨
       (membersOf samples s.1.pid = [] ∧ e = s.1)) := by
  simp only [attachEntities, List.mem_map, List.mem_filter] at he
  obtain ⟨s, ⟨hs, hlead⟩, hfe⟩ := he
  by_cases hempty : (membersOf samples s.1.pid).isEmpty = true
  · rw [if_pos hempty] at hfe
    exact ⟨s, hs, by simpa using hlead, by rw [← hfe],
      Or.inr ⟨List.isEmpty_iff.mp hempty, hfe.symm⟩⟩
  · rw [if_neg hempty] at hfe
    refine ⟨s, hs, by simpa using hlead, by rw [← hfe],
      Or.inl ⟨?_, by rw [← hfe]⟩⟩
    intro hnil
    exact hempty (by simp [hnil])

theorem mem_membersOf {samples : List (ProcessInfo × Option Nat)}
    {p : ProcessInfo} {t : Nat} (hmem : (p, some t) ∈ samples)
    (hne : t ≠ p.pid) : p ∈ membersOf samples t := by
  simp only [membersOf, List.mem_filterMap]
  exact ⟨(p, some t), hmem, by simp [hne]⟩

theorem membersOf_elim {samples : List (ProcessInfo × Option Nat)}
    {q : ProcessInfo} {leaderPid : Nat}
    (hq : q ∈ membersOf samples leaderPid) :
    ∃ tg, (q, tg) ∈ samples ∧ tg = some leaderPid ∧ leaderPid ≠ q.pid := by
  simp only [membersOf, List.mem_filterMap] at hq
  obtain ⟨⟨info, tg⟩, hs, hf⟩ := hq
  cases tg with
  | none => simp at hf
  | some u =>
    simp only [] at hf
    by_cases hcond : u ≠ info.pid ∧ u = leaderPid
    · rw [if_pos hcond] at hf
      obtain ⟨hne, rfl⟩ := hcond
      obtain rfl : info = q := by injection hf
      exact ⟨some u, hs, rfl, hne⟩
    · rw [if_neg hcond] at hf
      exact absurd hf (by simp)

/-- C2: a sample whose TGID differs from its pid is attached as a member of
the entity led by that TGID; with no such leader this tick it appears in no
entity; a sample whose TGID equals its pid (or is unreadable) leads its own
entity; and the `Tgid 500`/pids 500, 501 example yields one entity led by
pid 500 with `child_count` 1. -/
theorem tgid_grouping :
    (∀ (samples : List (ProcessInfo × Option Nat)) (p : ProcessInfo) (t : Nat),
        (p, some t) ∈ samples → t ≠ p.pid →
        ∀ e ∈ attachEntities samples, e.pid = t → p ∈ e.children) ∧
    (∀ (samples : List (ProcessInfo × Option Nat)) (p : ProcessInfo) (t : Nat),
        (samples.map (fun s => s.1.pid)).Nodup →
        (∀ s ∈ samples, s.1.children = []) →
        (p, some t) ∈ samples → t ≠ p.pid →
        (∀ s ∈ samples, s.1.pid = t → isMemberSample s.1 s.2 = true) →
        ∀ e ∈ attachEntities samples, e.pid ≠ p.pid ∧ p ∉ e.children) ∧
    (∀ (samples : List (ProcessInfo × Option Nat))
        (s : ProcessInfo × Option Nat),
        s ∈ samples → isMemberSample s.1 s.2 = false →
        ∃ e ∈ attachEntities samples, e.pid = s.1.pid) ∧
    (attachEntities ex500 = [ent500] ∧ ent500.pid = 500 ∧
      ent500.child_count = 1 ∧ ent500.is_group = true) := by
  refine ⟨?_, ?_, ?_, rfl, rfl, rfl, rfl⟩
  · intro samples p t hmem hne e he hpid
    obtain ⟨s, hs, hlead, hepid, hch⟩ := attach_elim he
    have hp : p ∈ membersOf samples s.1.pid := by
      rw [← hepid, hpid]
      exact mem_membersOf hmem hne
    rcases hch with ⟨_, hch⟩ | ⟨hnil, _⟩
    · rw [hch]; exact hp
    · rw [hnil] at hp; exact absurd hp (List.not_mem_nil p)
  · intro samples p t hnd hch0 hmem hne hnolead e he
    obtain ⟨s, hs, hlead, hepid, hch⟩ := attach_elim he
    have hmemBool : isMemberSample p (some t) = true := by
      simp [isMemberSample, hne]
    constructor
    · intro hpe
      have heq : s = (p, some t) :=
        List.inj_on_of_nodup_map hnd hs hmem (by rw [← hepid, hpe])
      rw [heq] at hlead
      rw [hlead] at hmemBool
      exact absurd hmemBool (by simp)
    · intro hpc
      rcases hch with ⟨_, hch⟩ | ⟨_, hes⟩
      · rw [hch] at hpc
        obtain ⟨tg, htg, htgeq, hlne⟩ := membersOf_elim hpc
        have heq : (p, tg) = (p, some t) :=
          List.inj_on_of_nodup_map hnd htg hmem rfl
        have htgt : tg = some t := congrArg Prod.snd heq
        rw [htgt] at htgeq
        have hts : s.1.pid = t := (Option.some.inj htgeq).symm
        have hml := hnolead s hs hts
        rw [hlead] at hml
        exact absurd hml (by simp)
      · rw [hes] at hpc
        rw [hch0 s hs] at hpc
        exact absurd hpc (List.not_mem_nil p)
  · intro samples s hs hlead
    by_cases hempty : (membersOf samples s.1.pid).isEmpty = true
    · refine ⟨s.1, ?_, rfl⟩
      simp only [attachEntities, List.mem_map]
      refine ⟨s, List.mem_filter.mpr ⟨hs, by simp [hlead]⟩, ?_⟩
      exact if_pos hempty
    · refine ⟨{ s.1 with children := membersOf samples s.1.pid, is_group := true }, ?_, rfl⟩
      simp only [attachEntities, List.mem_map]
      refine ⟨s, List.mem_filter.mpr ⟨hs, by simp [hlead]⟩, ?_⟩
      exact if_neg hempty

/-- Witness for C2 at the 500/501 example: pid 501 is a member of the
entity led by pid 500, whose child count is 1. -/
theorem tgid_grouping_witness :
    mkInfo 501 ∈ ent500.children ∧ ent500.child_count = 1 :=
  ⟨tgid_grouping.1 ex500 (mkInfo 501) 500 (by simp [ex500]) (by decide)
      ent500 (show ent500 ∈ [ent500] by simp) rfl,
    tgid_grouping.2.2.2.2.2.1⟩

theorem updateHistories_frame (procs : List ProcessInfo) :
    ∀ (hist : Nat → Option ProcessHistory) (gu : ℚ) (nr nt ms q : Nat),
      q ∉ procs.map ProcessInfo.pid →
      updateHistories hist procs gu nr nt ms q = hist q := by
  induction procs with
  | nil => intro hist gu nr nt ms q _; rfl
  | cons p ps ih =>
    intro hist gu nr nt ms q hq
    simp only [List.map_cons, List.mem_cons, not_or] at hq
    obtain ⟨hqp, hqs⟩ := hq
    have step : updateHistories hist (p :: ps) gu nr nt ms =
        updateHistories (fun r =>
          if r = p.pid then
            some (((hist p.pid).getD emptyHistory).add_sample p.total_cpu
              p.total_memory p.total_disk_read p.total_disk_write p.total_gpu
              gu nr nt ms)
          else hist r) ps gu nr nt ms := rfl
    rw [step, ih _ gu nr nt ms q (by simpa using hqs)]
    simp [hqp]

theorem updateHistories_isSome (procs : List ProcessInfo) :
    ∀ (hist : Nat → Option ProcessHistory) (gu : ℚ) (nr nt ms q : Nat),
      (updateHistories hist procs gu nr nt ms q).isSome ↔
        ((hist q).isSome ∨ q ∈ procs.map ProcessInfo.pid) := by
  induction procs with
  | nil => intro hist gu nr nt ms q; simp [updateHistories]
  | cons p ps ih =>
    intro hist gu nr nt ms q
    have step : updateHistories hist (p :: ps) gu nr nt ms =
        updateHistories (fun r =>
          if r = p.pid then
            some (((hist p.pid).getD emptyHistory).add_sample p.total_cpu
              p.total_memory p.total_disk_read p.total_disk_write p.total_gpu
              gu nr nt ms)
          else hist r) ps gu nr nt ms := rfl
    rw [step, ih]
    by_cases hqp : q = p.pid
    · simp [hqp]
    · simp [hqp]

theorem updateHistories_append (procs : List ProcessInfo) :
    ∀ (hist : Nat → Option ProcessHistory) (gu : ℚ) (nr nt ms : Nat)
      (p : ProcessInfo), (procs.map ProcessInfo.pid).Nodup → p ∈ procs →
      updateHistories hist procs gu nr nt ms p.pid =
        some (((hist p.pid).getD emptyHistory).add_sample p.total_cpu
          p.total_memory p.total_disk_read p.total_disk_write p.total_gpu
          gu nr nt ms) := by
  induction procs with
  | nil => intro hist gu nr nt ms p _ hp; exact absurd hp (List.not_mem_nil p)
  | cons r ps ih =>
    intro hist gu nr nt ms p hnd hp
    simp only [List.map_cons, List.nodup_cons] at hnd
    obtain ⟨hrps, hndps⟩ := hnd
    have step : updateHistories hist (r :: ps) gu nr nt ms =
        updateHistories (fun q =>
          if q = r.pid then
            some (((hist r.pid).getD emptyHistory).add_sample r.total_cpu
              r.total_memory r.total_disk_read r.total_disk_write r.total_gpu
              gu nr nt ms)
          else hist q) ps gu nr nt ms := rfl
    rcases List.mem_cons.mp hp with rfl | hps
    · rw [step]
      have hnotin : p.pid ∉ ps.map ProcessInfo.pid := hrps
      rw [updateHistories_frame ps _ gu nr nt ms p.pid hnotin]
      simp
    · have hne : p.pid ≠ r.pid := by
        intro hcontra
        exact hrps (hcontra ▸ List.mem_map_of_mem ProcessInfo.pid hps)
      rw [step, ih _ gu nr nt ms p hndps hps]
      simp [hne]

/-- C7: after a `refresh` tick, the pids holding a history record are
exactly the pids of the returned entity list — every returned pid has this
tick's sample appended to its (possibly fresh) record, and records for
pids absent from this tick's output are deleted, so `get_history` for them
returns nothing. -/
theorem refresh_history_domain :
    (∀ (hist : Nat → Option ProcessHistory) (procs : List ProcessInfo)
        (gu : ℚ) (nr nt ms q : Nat),
        (get_history (refreshHistories hist procs gu nr nt ms) q).isSome ↔
          q ∈ procs.map ProcessInfo.pid) ∧
    (∀ (hist : Nat → Option ProcessHistory) (procs : List ProcessInfo)
        (gu : ℚ) (nr nt ms q : Nat), q ∉ procs.map ProcessInfo.pid →
        get_history (refreshHistories hist procs gu nr nt ms) q = none) ∧
    (∀ (hist : Nat → Option ProcessHistory) (procs : List ProcessInfo)
        (gu : ℚ) (nr nt ms : Nat) (p : ProcessInfo),
        (procs.map ProcessInfo.pid).Nodup → p ∈ procs →
        get_history (refreshHistories hist procs gu nr nt ms) p.pid =
          some (((hist p.pid).getD emptyHistory).add_sample p.total_cpu
            p.total_memory p.total_disk_read p.total_disk_write p.total_gpu
            gu nr nt ms)) := by
  refine ⟨?_, ?_, ?_⟩
  · intro hist procs gu nr nt ms q
    simp only [get_history, refreshHistories, retainCurrent]
    by_cases hq : q ∈ procs.map ProcessInfo.pid
    · rw [if_pos (List.elem_iff.mpr hq)]
      rw [updateHistories_isSome]
      simp [hq]
    · rw [if_neg (fun hc => hq (List.elem_iff.mp hc))]
      simp [hq]
  · intro hist procs gu nr nt ms q hq
    simp only [get_history, refreshHistories, retainCurrent]
    rw [if_neg (fun hc => hq (List.elem_iff.mp hc))]
  · intro hist procs gu nr nt ms p hnd hp
    have hmem : p.pid ∈ procs.map ProcessInfo.pid :=
      List.mem_map_of_mem ProcessInfo.pid hp
    simp only [get_history, refreshHistories, retainCurrent]
    rw [if_pos (List.elem_iff.mpr hmem)]
    exact updateHistories_append procs hist gu nr nt ms p hnd hp

/-- Witness for C7: one tick over entity pid 7 starting from an empty
store creates exactly its record with the sample appended. -/
theorem refresh_history_domain_witness :
    get_history (refreshHistories (fun _ => none) [mkInfo 7] 0 0 0 5)
        (mkInfo 7).pid =
      some ((((fun _ => none : Nat → Option ProcessHistory) (mkInfo 7).pid).getD
          emptyHistory).add_sample (mkInfo 7).total_cpu (mkInfo 7).total_memory
        (mkInfo 7).total_disk_read (mkInfo 7).total_disk_write
        (mkInfo 7).total_gpu 0 0 0 5) :=
  refresh_history_domain.2.2 (fun _ => none) [mkInfo 7] 0 0 0 5 (mkInfo 7)
    (by simp) (by simp)

theorem and_shift_testBit (m i : Nat) :
    ((m &&& (1 <<< i)) != 0) = m.testBit i := by
  rw [Nat.shiftLeft_eq, one_mul, Nat.and_two_pow]
  cases h : m.testBit i <;> simp

/-- C10 counterexample: on a machine with 65 detected cores and affinity
mask `1`, entry 64 of the returned vector is true — the `u64` shift
`1 << 64` takes its amount modulo 64, consulting bit 0 — although bit 64 of
the parsed mask is not set; so entry `i` is not always bit `i` of the mask. -/
theorem get_cpu_affinity_wrap_cex :
    (get_cpu_affinity exTaskset1 65).map (fun out => out.getD 64 false) =
      some true ∧
    Nat.testBit 1 64 = false :=
  ⟨by decide, by decide⟩

/-- C10 amended: a successful `get_cpu_affinity` returns one boolean per
detected logical core (bits at or above the core count are discarded), and
entry `i` is true exactly when bit `i % 64` of the parsed 64-bit mask is
set — the `u64` shift wraps its amount modulo 64 — which for core counts
of at most 64 is exactly bit `i`. -/
theorem get_cpu_affinity_bits :
    (∀ (stdout : List Char) (cpu_count mask : Nat),
        parseHexU64 (trimChars (lastSegment stdout ':')) = some mask →
        ∃ out, get_cpu_affinity stdout cpu_count = some out ∧
          out.length = cpu_count ∧
          (∀ i, i < cpu_count → out.getD i false = mask.testBit (i % 64)) ∧
          (cpu_count ≤ 64 →
            ∀ i, i < cpu_count → out.getD i false = mask.testBit i)) ∧
    (∀ (stdout : List Char) (cpu_count : Nat) (out : List Bool),
        get_cpu_affinity stdout cpu_count = some out →
        out.length = cpu_count) := by
  constructor
  · intro stdout cpu_count mask hparse
    have hbit : ∀ i, i < cpu_count →
        ((List.range cpu_count).map
          (fun i => (mask &&& (1 <<< (i % 64))) != 0)).getD i false =
        mask.testBit (i % 64) := by
      intro i hi
      rw [List.getD_eq_getElem?_getD, List.getElem?_map,
        List.getElem?_range hi]
      simp [and_shift_testBit]
    refine ⟨(List.range cpu_count).map
        (fun i => (mask &&& (1 <<< (i % 64))) != 0),
      ?_, by simp, hbit, ?_⟩
    · simp [get_cpu_affinity, hparse]
    · intro hle i hi
      rw [hbit i hi, Nat.mod_eq_of_lt (by omega)]
  · intro stdout cpu_count out hout
    simp only [get_cpu_affinity] at hout
    cases hparse : parseHexU64 (trimChars (lastSegment stdout ':')) with
    | none => rw [hparse] at hout; exact absurd hout (by simp)
    | some mask =>
      rw [hparse] at hout
      have : (List.range cpu_count).map
          (fun i => (mask &&& (1 <<< (i % 64))) != 0) = out := by
        simpa using hout
      rw [← this]
      simp

/-- Witness for C10: the specification's round-trip example — mask `5` over
4 cores reads back as cores 0 and 2 allowed. -/
theorem get_cpu_affinity_bits_witness :
    ∃ out, get_cpu_affinity exTaskset 4 = some out ∧ out.length = 4 ∧
      (∀ i, i < 4 → out.getD i false = Nat.testBit 5 (i % 64)) ∧
      (4 ≤ 64 → ∀ i, i < 4 → out.getD i false = Nat.testBit 5 i) :=
  get_cpu_affinity_bits.1 exTaskset 4 5 (by decide)

theorem detect_unfold (read : Nat → Option (List Char)) (n : Nat) :
    detect_amd_x3d_cores true read n =
      (if 1 < (((sizedCores read n).map Prod.snd).dedup).length then
        match (((sizedCores read n).map Prod.snd).dedup).max?,
            (((sizedCores read n).map Prod.snd).dedup).min? with
        | some maxS, some _ =>
          if (((sizedCores read n).map Prod.snd).dedup).min?.getD 0 * 2 < maxS
          then
            some ((sizedCores read n).filterMap
              (fun p => if p.2 = maxS then some p.1 else none))
          else none
        | _, _ => none
      else none) := by
  simp only [detect_amd_x3d_cores, Bool.true_eq_false, if_false]
  cases hmax : (((sizedCores read n).map Prod.snd).dedup).max? with
  | none => rfl
  | some maxS =>
    cases hmin : (((sizedCores read n).map Prod.snd).dedup).min? with
    | none => rfl
    | some minS => simp [hmin]

/-- C8: on the AMD vendor string, when the per-core L3 sizes form more than
one distinct group and the largest is strictly more than double the
smallest, exactly the cores of the largest-cache group are classified X3D
and every other core stays standard; the spec's 32768K/98304K example
marks exactly cores 8–15. -/
theorem x3d_classification :
    (∀ (read : Nat → Option (List Char)) (n : Nat),
        detect_amd_x3d_cores false read n = none) ∧
    (∀ (read : Nat → Option (List Char)) (n : Nat) (l : List Nat) (i : Nat),
        detect_amd_x3d_cores true read n = some l →
        (coreTypeFor none (some l) i = CoreType.X3D ↔ i ∈ l) ∧
        (coreTypeFor none (some l) i = CoreType.X3D ∨
          coreTypeFor none (some l) i = CoreType.Standard)) ∧
    (∀ (read : Nat → Option (List Char)) (n : Nat) (l : List Nat),
        detect_amd_x3d_cores true read n = some l →
        ∃ maxS minS,
          (((sizedCores read n).map Prod.snd).dedup).max? = some maxS ∧
          (((sizedCores read n).map Prod.snd).dedup).min? = some minS ∧
          minS * 2 < maxS ∧
          l = (sizedCores read n).filterMap
            (fun p => if p.2 = maxS then some p.1 else none) ∧
          (∀ i, i ∈ l ↔ (i, maxS) ∈ sizedCores read n) ∧
          (∀ p ∈ sizedCores read n, p.2 ≤ maxS)) ∧
    (detect_amd_x3d_cores true exCacheRead 16 =
        some [8, 9, 10, 11, 12, 13, 14, 15] ∧
      (∀ i, i < 16 →
        (coreTypeFor none (detect_amd_x3d_cores true exCacheRead 16) i =
            CoreType.X3D ↔ 8 ≤ i))) := by
  refine ⟨fun read n => rfl, ?_, ?_, by decide, by decide⟩
  · intro read n l i _
    constructor
    · simp only [coreTypeFor]
      by_cases hc : i ∈ l
      · rw [if_pos (List.elem_iff.mpr hc)]
        simp [hc]
      · rw [if_neg (fun hcc => hc (List.elem_iff.mp hcc))]
        simp [hc]
    · simp only [coreTypeFor]
      split <;> simp
  · intro read n l h
    rw [detect_unfold] at h
    by_cases hlen : 1 < (((sizedCores read n).map Prod.snd).dedup).length
    · rw [if_pos hlen] at h
      cases hmax : (((sizedCores read n).map Prod.snd).dedup).max? with
      | none =>
        rw [hmax] at h
        cases hmin : (((sizedCores read n).map Prod.snd).dedup).min? with
        | none => rw [hmin] at h; exact absurd h (by simp)
        | some minS => rw [hmin] at h; exact absurd h (by simp)
      | some maxS =>
        cases hmin : (((sizedCores read n).map Prod.snd).dedup).min? with
        | none => rw [hmax, hmin] at h; exact absurd h (by simp)
        | some minS =>
          rw [hmax, hmin] at h
          have h2 : (if minS * 2 < maxS then
              some ((sizedCores read n).filterMap
                (fun p => if p.2 = maxS then some p.1 else none))
              else none) = some l := h
          by_cases hcmp : minS * 2 < maxS
          · rw [if_pos hcmp] at h2
            have hl : l = (sizedCores read n).filterMap
                (fun p => if p.2 = maxS then some p.1 else none) :=
              (Option.some.inj h2).symm
            refine ⟨maxS, minS, rfl, rfl, hcmp, hl, ?_, ?_⟩
            · intro i
              rw [hl, List.mem_filterMap]
              constructor
              · rintro ⟨⟨p1, p2⟩, hp, hpf⟩
                by_cases hps : p2 = maxS
                · simp only [hps, if_pos] at hpf
                  have hp1 : p1 = i := by simpa using hpf
                  rw [← hp1, ← hps]
                  exact hp
                · rw [if_neg (by simpa using hps)] at hpf
                  exact absurd hpf (by simp)
              · intro hmem
                exact ⟨(i, maxS), hmem, if_pos rfl⟩
            · have hall := (List.max?_le_iff (fun _ _ _ => max_le_iff)
                hmax).mp (le_refl maxS)
              intro p hp
              exact hall p.2 (List.mem_dedup.mpr
                (List.mem_map_of_mem Prod.snd hp))
          · rw [if_neg hcmp] at h2
            exact absurd h2 (by simp)
    · rw [if_neg hlen] at h
      exact absurd h (by simp)

/-- Witness for C8: core 8 of the 32768K/98304K example is classified X3D. -/
theorem x3d_classification_witness :
    coreTypeFor none (some [8, 9, 10, 11, 12, 13, 14, 15]) 8 = CoreType.X3D :=
  (x3d_classification.2.1 exCacheRead 16 [8, 9, 10, 11, 12, 13, 14, 15] 8
      (by decide)).1.mpr (by decide)

theorem foldr_splitWs_ws {c : Char} (hc : c.isWhitespace = true)
    (l : List Char) :
    (c :: l).foldr splitWsStep ([], []) = ([], splitWs l) := by
  show splitWsStep c (l.foldr splitWsStep ([], [])) = ([], splitWs l)
  simp only [splitWsStep]
  rw [if_pos hc]
  rfl

theorem splitWs_cons_ws {c : Char} (hc : c.isWhitespace = true)
    (l : List Char) : splitWs (c :: l) = splitWs l := by
  have h := foldr_splitWs_ws hc l
  show (if ((c :: l).foldr splitWsStep ([], [])).1.isEmpty then
      ((c :: l).foldr splitWsStep ([], [])).2
    else ((c :: l).foldr splitWsStep ([], [])).1 ::
      ((c :: l).foldr splitWsStep ([], [])).2) = splitWs l
  rw [h]
  simp

theorem foldr_splitWs_token (tok : List Char)
    (hnw : ∀ c ∈ tok, c.isWhitespace = false) (rest : List Char)
    (hrest : rest.foldr splitWsStep ([], []) = ([], splitWs rest)) :
    (tok ++ rest).foldr splitWsStep ([], []) = (tok, splitWs rest) := by
  induction tok with
  | nil => simpa using hrest
  | cons c cs ih =>
    have hc := hnw c (List.mem_cons_self c cs)
    have ih2 := ih (fun d hd => hnw d (List.mem_cons_of_mem c hd))
    show splitWsStep c ((cs ++ rest).foldr splitWsStep ([], [])) = _
    rw [ih2]
    simp only [splitWsStep]
    rw [if_neg (by simp [hc])]

theorem splitWs_token_append (tok : List Char) (hne : tok ≠ [])
    (hnw : ∀ c ∈ tok, c.isWhitespace = false) (rest : List Char)
    (hrest : rest.foldr splitWsStep ([], []) = ([], splitWs rest)) :
    splitWs (tok ++ rest) = tok :: splitWs rest := by
  have h := foldr_splitWs_token tok hnw rest hrest
  show (if ((tok ++ rest).foldr splitWsStep ([], [])).1.isEmpty then
      ((tok ++ rest).foldr splitWsStep ([], [])).2
    else ((tok ++ rest).foldr splitWsStep ([], [])).1 ::
      ((tok ++ rest).foldr splitWsStep ([], [])).2) = tok :: splitWs rest
  rw [h]
  rw [if_neg (fun hEmp => hne (List.isEmpty_iff.mp hEmp))]

theorem wsJoin_foldr (fs : List (List Char)) (hts : ∀ f ∈ fs, IsToken f) :
    (wsJoin fs).foldr splitWsStep ([], []) = ([], splitWs (wsJoin fs)) ∧
    splitWs (wsJoin fs) = fs := by
  induction fs with
  | nil => exact ⟨rfl, rfl⟩
  | cons f fs ih =>
    obtain ⟨hne, hnw⟩ := hts f (List.mem_cons_self f fs)
    have ih2 := ih (fun g hg => hts g (List.mem_cons_of_mem f hg))
    have hsp : (' ').isWhitespace = true := by decide
    have hjoin : wsJoin (f :: fs) = ' ' :: (f ++ wsJoin fs) := rfl
    constructor
    · rw [hjoin, foldr_splitWs_ws hsp, splitWs_cons_ws hsp]
    · rw [hjoin, splitWs_cons_ws hsp,
        splitWs_token_append f hne hnw (wsJoin fs) ih2.1, ih2.2]

theorem firstIdxOf_cons_self (c : Char) (l : List Char) :
    firstIdxOf (c :: l) c = some 0 := by
  show (if c = c then some 0 else (firstIdxOf l c).map (· + 1)) = some 0
  rw [if_pos rfl]

theorem firstIdxOf_cons_ne {x c : Char} (h : x ≠ c) (l : List Char) :
    firstIdxOf (x :: l) c = (firstIdxOf l c).map (· + 1) := by
  show (if x = c then some 0 else (firstIdxOf l c).map (· + 1)) = _
  rw [if_neg h]

theorem firstIdxOf_append_of_not_mem {c : Char} (l1 l2 : List Char)
    (h : c ∉ l1) :
    firstIdxOf (l1 ++ l2) c = (firstIdxOf l2 c).map (· + l1.length) := by
  induction l1 with
  | nil =>
    simp only [List.nil_append]
    cases hf : firstIdxOf l2 c <;> simp [hf]
  | cons x xs ih =>
    simp only [List.mem_cons, not_or] at h
    obtain ⟨hxc, hmem⟩ := h
    show (if x = c then some 0
      else (firstIdxOf (xs ++ l2) c).map (· + 1)) = _
    rw [if_neg (fun hh => hxc hh.symm), ih hmem]
    cases firstIdxOf l2 c <;> simp [Nat.add_assoc]

theorem lastIdxOf_eq_none {c : Char} (l : List Char) (h : c ∉ l) :
    lastIdxOf l c = none := by
  induction l with
  | nil => rfl
  | cons x xs ih =>
    simp only [List.mem_cons, not_or] at h
    show (match lastIdxOf xs c with
      | some j => some (j + 1)
      | none => if x = c then some 0 else none) = none
    rw [ih h.2]
    simp [Ne.symm h.1]

theorem lastIdxOf_append {c : Char} (l1 l2 : List Char) :
    lastIdxOf (l1 ++ l2) c =
      (match lastIdxOf l2 c with
        | some j => some (l1.length + j)
        | none => lastIdxOf l1 c) := by
  induction l1 with
  | nil =>
    simp only [List.nil_append]
    cases h2 : lastIdxOf l2 c <;> simp [h2, lastIdxOf]
  | cons x xs ih =>
    show (match lastIdxOf (xs ++ l2) c with
      | some j => some (j + 1)
      | none => if x = c then some 0 else none) = _
    rw [ih]
    cases h2 : lastIdxOf l2 c with
    | some j =>
      simp only [List.length_cons]
      have : xs.length + j + 1 = xs.length + 1 + j := by omega
      rw [this]
    | none => rfl

theorem lastIdxOf_cons_of_none {c x : Char} (hx : x = c) (l : List Char)
    (h : lastIdxOf l c = none) : lastIdxOf (x :: l) c = some 0 := by
  show (match lastIdxOf l c with
    | some j => some (j + 1)
    | none => if x = c then some 0 else none) = some 0
  rw [h]
  simp [hx]

theorem mem_wsJoin {c : Char} {fs : List (List Char)} (h : c ∈ wsJoin fs) :
    c = ' ' ∨ ∃ f ∈ fs, c ∈ f := by
  induction fs with
  | nil => exact absurd h (List.not_mem_nil c)
  | cons f fs ih =>
    have hjoin : wsJoin (f :: fs) = ' ' :: (f ++ wsJoin fs) := rfl
    rw [hjoin] at h
    rcases List.mem_cons.mp h with rfl | h2
    · exact Or.inl rfl
    · rcases List.mem_append.mp h2 with h3 | h3
      · exact Or.inr ⟨f, List.mem_cons_self f fs, h3⟩
      · rcases ih h3 with h4 | ⟨g, hg, hcg⟩
        · exact Or.inl h4
        · exact Or.inr ⟨g, List.mem_cons_of_mem f hg, hcg⟩

/-- C9 counterexample: on a stat record whose comm field is `a)b` (true
priority 15, true nice 5), `get_priority` — which locates the comm field by
its first closing parenthesis — returns 15 (the priority field), not the
nice value 5 found after the name's delimiting (last) parenthesis. -/
theorem get_priority_paren_cex :
    get_priority exStat = Except.ok 15 ∧
    specNiceAfterLastParen exStat = some 5 ∧
    (15 : Int) ≠ 5 :=
  ⟨rfl, rfl, by decide⟩

/-- C9 amended: `get_priority` locates the comm field by its first closing
parenthesis, so a name containing whitespace or opening parentheses is
handled and the nice value is read correctly from field 16 after the name;
only a closing parenthesis inside the name mis-parses (in contrast,
`parse_stat_for_cpu` uses the last closing parenthesis and recovers a name
containing whitespace and any parentheses). -/
theorem get_priority_first_paren :
    (∀ (pid name : List Char) (fields : List (List Char)) (v : Int),
        ')' ∉ pid → ')' ∉ name → (∀ f ∈ fields, IsToken f) →
        16 < fields.length → parseIntChars (fields.getD 16 []) = some v →
        get_priority (mkStat pid name fields) = Except.ok v) ∧
    (∀ (pid name : List Char) (fields : List (List Char)),
        '(' ∉ pid → (∀ f ∈ fields, ')' ∉ f) →
        (parse_stat_for_cpu (mkStat pid name fields)).1 = name) := by
  constructor
  · intro pid name fields v hpid hname hts hlen hv
    have hidx : firstIdxOf (mkStat pid name fields) ')' =
        some (pid.length + name.length + 2) := by
      show firstIdxOf
        (pid ++ ' ' :: '(' :: (name ++ ')' :: wsJoin fields)) ')' = _
      rw [firstIdxOf_append_of_not_mem _ _ hpid,
        firstIdxOf_cons_ne (by decide), firstIdxOf_cons_ne (by decide),
        firstIdxOf_append_of_not_mem _ _ hname, firstIdxOf_cons_self]
      simp only [Option.map_some']
      congr 1
      omega
    have hm : mkStat pid name fields =
        (pid ++ ' ' :: '(' :: (name ++ [')'])) ++ wsJoin fields := by
      simp [mkStat]
    have hlenA : (pid ++ ' ' :: '(' :: (name ++ [')'])).length =
        pid.length + name.length + 2 + 1 := by
      simp
      omega
    have hdrop : (mkStat pid name fields).drop
        (pid.length + name.length + 2 + 1) = wsJoin fields := by
      rw [hm, ← hlenA, List.drop_left]
    have hsplit := (wsJoin_foldr fields hts).2
    simp only [get_priority, hidx]
    rw [hdrop, hsplit, if_pos hlen, hv]
  · intro pid name fields hpid hfp
    have hwsj : ')' ∉ wsJoin fields := by
      intro hmemJ
      rcases mem_wsJoin hmemJ with h1 | ⟨f, hf, hcf⟩
      · exact absurd h1 (by decide)
      · exact (hfp f hf) hcf
    have hm2 : mkStat pid name fields =
        (pid ++ ' ' :: '(' :: name) ++ ')' :: wsJoin fields := by
      simp [mkStat]
    have hstart : firstIdxOf (mkStat pid name fields) '(' =
        some (pid.length + 1) := by
      show firstIdxOf
        (pid ++ ' ' :: '(' :: (name ++ ')' :: wsJoin fields)) '(' = _
      rw [firstIdxOf_append_of_not_mem _ _ hpid,
        firstIdxOf_cons_ne (by decide), firstIdxOf_cons_self]
      simp only [Option.map_some']
      congr 1
      omega
    have hlast : lastIdxOf (mkStat pid name fields) ')' =
        some (pid.length + 2 + name.length) := by
      rw [hm2, lastIdxOf_append,
        lastIdxOf_cons_of_none rfl _ (lastIdxOf_eq_none _ hwsj)]
      show some ((pid ++ ' ' :: '(' :: name).length + 0) = _
      congr 1
      simp
      omega
    simp only [parse_stat_for_cpu, hstart, hlast, Option.getD_some]
    rw [if_pos (by omega)]
    have htakelen : (pid ++ ' ' :: '(' :: name).length =
        pid.length + 2 + name.length := by
      simp
      omega
    have htake : (mkStat pid name fields).take
        (pid.length + 2 + name.length) = pid ++ ' ' :: '(' :: name := by
      rw [hm2, ← htakelen, List.take_left]
    rw [htake]
    have hm3 : pid ++ ' ' :: '(' :: name = (pid ++ [' ', '(']) ++ name := by
      simp
    have hdroplen : (pid ++ [' ', '(']).length = pid.length + 1 + 1 := by
      simp
    rw [hm3, ← hdroplen, List.drop_left]

/-- Witness for the amended C9: a comm field `a b` containing whitespace
parses to nice value 5 at field 16. -/
theorem get_priority_first_paren_witness :
    get_priority (mkStat ("500".toList) ("a b".toList) exFields) =
      Except.ok 5 :=
  get_priority_first_paren.1 ("500".toList) ("a b".toList) exFields 5
    (by decide) (by decide) (by decide) (by decide) (by decide)
